import Mathlib

/-!
Verification of the `DevFriendlySplitChunksPlugin` chunk-splitting pass
(`crates/rspack_plugin_dev_friendly_split_chunks/src/plugin.rs`).

The Rust pass is shallowly embedded as follows.

* Module identifiers (`rspack_identifier::Identifier`) and chunk ukeys
  (`ChunkUkey`) are modelled as natural numbers; the sorter's tie-break on
  identifiers becomes `≤` on `ℕ`.
* The `f64` module sizes and the constants/coefficients (`5000000.0`, `5.0`,
  `1.5`) are modelled as exact rationals `ℚ`.  All arithmetic the pass
  performs on sizes (sums, subtractions, comparisons) is carried out
  exactly; for the integral byte counts the code feeds it, the `f64`
  computation is exact as well.
* `HashSet`-valued data (a module's referencing chunk set, a chunk's module
  set) is modelled as `Finset ℕ`.  `ref_chunks` is collected from a
  `HashSet` in the source, so only its set of elements is determined; the
  pass reads its `len` and iterates it with set-insensitive effects.
* The nondeterministic parallel enumeration order (`par_bridge`) of the
  module graph is kept as an explicit `modules : List ℕ` field of the
  compilation state.
* The two `.expect("Should have a module here")` panic sites become an
  `Except String` result: the pass looks every shared module up in the
  module graph, and any failed lookup aborts the whole pass with the fixed
  panic message, exactly as the panic aborts the Rust pass.
-/

/-- Module types as far as the pass distinguishes them: the four JSX/TSX
types get size coefficient `5.0` in `optimize_chunks`, every other
`ModuleType` variant falls into the `_ => 1.5` arm and is collapsed into
`other`. -/
inductive ModuleType where
  | jsx
  | jsxDynamic
  | jsxEsm
  | tsx
  | other
deriving DecidableEq, Repr, Inhabited

/-- The data of one module as consumed by the pass: its `module_type()` and
its `size(&SourceType::JavaScript)`. -/
structure ModuleData where
  moduleType : ModuleType
  size : ℚ
deriving DecidableEq, Repr, Inhabited

/-- The per-module transpilation coefficient from `optimize_chunks`
(lines 85-92): `5.0` for `Jsx`, `JsxDynamic`, `JsxEsm`, `Tsx`, `1.5`
otherwise. -/
def coefficient : ModuleType → ℚ
  | .jsx => 5
  | .jsxDynamic => 5
  | .jsxEsm => 5
  | .tsx => 5
  | .other => 3 / 2

/-- `struct SharedModule { module: Identifier, ref_chunks: Vec<ChunkUkey> }`.
`ref_chunks` is collected from the `HashSet` returned by
`get_modules_chunks`, hence modelled as a `Finset`. -/
structure SharedModule where
  module : ℕ
  ref_chunks : Finset ℕ
deriving DecidableEq

/-- The slice of the compilation the pass reads and mutates:
the module graph (`modules()` enumeration plus `module_by_identifier`),
the inverse index `chunk_graph_module.chunks` per module, the
`chunk_graph_chunk.modules` set per chunk, the registered chunk ukeys
(`chunk_by_ukey`), and the counter from which fresh chunk ukeys are
drawn. -/
structure Compilation where
  modules : List ℕ
  moduleGraph : ℕ → Option ModuleData
  moduleChunks : ℕ → Finset ℕ
  chunkModules : ℕ → Finset ℕ
  chunks : Finset ℕ
  nextUkey : ℕ

/-- `const MAX_MODULES_PER_CHUNK: usize = 500`. -/
def MAX_MODULES_PER_CHUNK : ℕ := 500

/-- `const MAX_SIZE_PER_CHUNK: f64 = 5000000.0`. -/
def MAX_SIZE_PER_CHUNK : ℚ := 5000000

/-- Shared Module Detector (plugin.rs lines 39-53): map every module of the
module graph to a `SharedModule` holding its referencing chunk keys, and
keep those with `ref_chunks.len() > 1`. -/
def detectShared (c : Compilation) : List SharedModule :=
  (c.modules.map fun m => SharedModule.mk m (c.moduleChunks m)).filter
    fun sm => 1 < sm.ref_chunks.card

/-- The sorter's comparison (plugin.rs lines 55-64): `a` precedes `b` when
`a`'s reference count is greater, and on equal reference counts when `a`'s
module identifier is smaller or equal. -/
def sharedLE (a b : SharedModule) : Prop :=
  b.ref_chunks.card < a.ref_chunks.card ∨
    (a.ref_chunks.card = b.ref_chunks.card ∧ a.module ≤ b.module)

instance : DecidableRel sharedLE := fun a b =>
  inferInstanceAs (Decidable (_ ∨ _ ∧ _))

instance : IsTotal SharedModule sharedLE where
  total a b := by
    unfold sharedLE
    rcases Nat.lt_trichotomy a.ref_chunks.card b.ref_chunks.card with h | h | h
    · exact Or.inr (Or.inl h)
    · rcases Nat.le_total a.module b.module with hm | hm
      · exact Or.inl (Or.inr ⟨h, hm⟩)
      · exact Or.inr (Or.inr ⟨h.symm, hm⟩)
    · exact Or.inl (Or.inl h)

instance : IsTrans SharedModule sharedLE where
  trans a b c hab hbc := by
    unfold sharedLE at *
    rcases hab with h1 | ⟨h1, h1'⟩ <;> rcases hbc with h2 | ⟨h2, h2'⟩
    · exact Or.inl (h2.trans h1)
    · exact Or.inl (h2 ▸ h1)
    · exact Or.inl (h1 ▸ h2)
    · exact Or.inr ⟨h1.trans h2, h1'.trans h2'⟩

/-- Priority Sorter (plugin.rs lines 55-64): `sort_unstable_by` with the
two-key comparator.  Since distinct detected `SharedModule`s carry distinct
module identifiers, the comparator never compares two distinct elements as
equal, so the (unstable) sort result is the unique `sharedLE`-sorted
permutation; `insertionSort` computes it. -/
def sortShared (l : List SharedModule) : List SharedModule :=
  l.insertionSort sharedLE

/-- The sorted shared-module sequence the grouper consumes. -/
def sharedOf (c : Compilation) : List SharedModule :=
  sortShared (detectShared c)

theorem sortShared_perm (l : List SharedModule) : List.Perm (sortShared l) l :=
  List.perm_insertionSort sharedLE l

theorem sortShared_sorted (l : List SharedModule) :
    (sortShared l).Sorted sharedLE :=
  List.sorted_insertionSort sharedLE l

/-- Level-1 grouping (plugin.rs line 74): `par_chunks(MAX_MODULES_PER_CHUNK)`
splits the sorted sequence into consecutive windows of at most 500
entries. -/
def parChunks {α : Type} : List α → List (List α)
  | [] => []
  | x :: xs =>
    (x :: xs).take MAX_MODULES_PER_CHUNK ::
      parChunks ((x :: xs).drop MAX_MODULES_PER_CHUNK)
termination_by l => l.length
decreasing_by
  simp only [List.length_drop, List.length_cons, MAX_MODULES_PER_CHUNK]
  omega

theorem parChunks_nil {α : Type} : parChunks ([] : List α) = [] := by
  rw [parChunks]

theorem parChunks_cons {α : Type} (l : List α) (h : l ≠ []) :
    parChunks l =
      l.take MAX_MODULES_PER_CHUNK :: parChunks (l.drop MAX_MODULES_PER_CHUNK) := by
  cases l with
  | nil => exact absurd rfl h
  | cons x xs => rw [parChunks]

/-- The raw (unweighted) total size of a batch under a size function,
matching the running sums the re-split loop maintains. -/
def listSum (f : ℕ → ℚ) (b : List SharedModule) : ℚ :=
  (b.map fun sm => f sm.module).sum

/-- The inner `while` of the size re-split (plugin.rs lines 103-114): with
running raw size `acc`, keep consuming modules while `acc` is still below
`MAX_SIZE_PER_CHUNK`; returns the consumed batch and the remaining
modules.  Note the check happens before each add, so the module whose
addition reaches or crosses the cap is still included. -/
def takeGreedy (f : ℕ → ℚ) (acc : ℚ) : List SharedModule → List SharedModule × List SharedModule
  | [] => ([], [])
  | m :: rest =>
    if acc < MAX_SIZE_PER_CHUNK then
      let p := takeGreedy f (acc + f m.module) rest
      (m :: p.1, p.2)
    else ([], m :: rest)

theorem takeGreedy_append (f : ℕ → ℚ) (acc : ℚ) (l : List SharedModule) :
    (takeGreedy f acc l).1 ++ (takeGreedy f acc l).2 = l := by
  induction l generalizing acc with
  | nil => simp [takeGreedy]
  | cons m rest ih =>
    by_cases h : acc < MAX_SIZE_PER_CHUNK
    · simp [takeGreedy, h, ih]
    · simp [takeGreedy, h]

theorem takeGreedy_fst_ne_nil (f : ℕ → ℚ) (acc : ℚ) (l : List SharedModule)
    (hacc : acc < MAX_SIZE_PER_CHUNK) (hl : l ≠ []) :
    (takeGreedy f acc l).1 ≠ [] := by
  cases l with
  | nil => exact absurd rfl hl
  | cons m rest => simp [takeGreedy, hacc]

theorem takeGreedy_snd_length (f : ℕ → ℚ) (acc : ℚ) (l : List SharedModule)
    (hacc : acc < MAX_SIZE_PER_CHUNK) (hl : l ≠ []) :
    (takeGreedy f acc l).2.length < l.length := by
  have happ := takeGreedy_append f acc l
  have h1 := takeGreedy_fst_ne_nil f acc l hacc hl
  have : (takeGreedy f acc l).1.length + (takeGreedy f acc l).2.length = l.length := by
    rw [← List.length_append, happ]
  have : 0 < (takeGreedy f acc l).1.length := List.length_pos.mpr h1
  omega

/-- When the inner loop stops with modules left over, the running size has
reached the cap: `acc` plus the consumed batch's raw size is at least
`MAX_SIZE_PER_CHUNK`. -/
theorem takeGreedy_snd_ne_nil_size (f : ℕ → ℚ) (acc : ℚ) (l : List SharedModule)
    (h : (takeGreedy f acc l).2 ≠ []) :
    MAX_SIZE_PER_CHUNK ≤ acc + listSum f (takeGreedy f acc l).1 := by
  induction l generalizing acc with
  | nil => simp [takeGreedy] at h
  | cons m rest ih =>
    by_cases hacc : acc < MAX_SIZE_PER_CHUNK
    · simp only [takeGreedy, if_pos hacc] at h ⊢
      have := ih (acc + f m.module) h
      simp only [listSum, List.map_cons, List.sum_cons] at this ⊢
      linarith
    · simp only [takeGreedy, if_neg hacc, listSum, List.map_nil, List.sum_nil]
      linarith [not_lt.mp hacc]

/-- Every proper prefix of a consumed batch is still below the cap: the
batch without its final module has `acc` plus raw size strictly less than
`MAX_SIZE_PER_CHUNK`. -/
theorem takeGreedy_dropLast_size (f : ℕ → ℚ) (acc : ℚ) (l : List SharedModule)
    (h : (takeGreedy f acc l).1 ≠ []) :
    acc + listSum f (takeGreedy f acc l).1.dropLast < MAX_SIZE_PER_CHUNK := by
  induction l generalizing acc with
  | nil => simp [takeGreedy] at h
  | cons m rest ih =>
    by_cases hacc : acc < MAX_SIZE_PER_CHUNK
    · simp only [takeGreedy, if_pos hacc] at h ⊢
      by_cases h1 : (takeGreedy f (acc + f m.module) rest).1 = []
      · simp [h1, listSum, hacc]
      · have := ih (acc + f m.module) h1
        rw [List.dropLast_cons_of_ne_nil h1]
        simp only [listSum, List.map_cons, List.sum_cons] at this ⊢
        linarith
    · simp [takeGreedy, if_neg hacc] at h

/-- With nonnegative sizes and total raw size keeping `acc` strictly below
the cap, the inner loop consumes the whole list. -/
theorem takeGreedy_consume_all (f : ℕ → ℚ) (acc : ℚ) (l : List SharedModule)
    (hnn : ∀ sm ∈ l, 0 ≤ f sm.module)
    (hlt : acc + listSum f l < MAX_SIZE_PER_CHUNK) :
    takeGreedy f acc l = (l, []) := by
  induction l generalizing acc with
  | nil => simp [takeGreedy]
  | cons m rest ih =>
    have hrest : 0 ≤ (rest.map fun sm => f sm.module).sum := by
      refine List.sum_nonneg ?_
      intro x hx
      rcases List.mem_map.mp hx with ⟨sm, hsm, rfl⟩
      exact hnn sm (List.mem_cons_of_mem _ hsm)
    have hm : 0 ≤ f m.module := hnn m (List.mem_cons_self m rest)
    simp only [listSum, List.map_cons, List.sum_cons] at hlt
    have hacc : acc < MAX_SIZE_PER_CHUNK := by linarith
    simp only [takeGreedy, if_pos hacc]
    rw [ih (acc + f m.module) (fun sm h => hnn sm (List.mem_cons_of_mem _ h))
      (by simp only [listSum]; linarith)]

/-- The outer `while` of the size re-split plus the trailing push
(plugin.rs lines 99-120): while the remaining (weighted) size exceeds the
cap and modules remain, carve off a greedy raw-size batch and subtract its
raw size from the remainder; afterwards push any leftover modules as a
final batch. -/
def splitLoop (f : ℕ → ℚ) (remain : ℚ) (l : List SharedModule) : List (List SharedModule) :=
  if h : MAX_SIZE_PER_CHUNK < remain ∧ l ≠ [] then
    (takeGreedy f 0 l).1 ::
      splitLoop f (remain - listSum f (takeGreedy f 0 l).1) (takeGreedy f 0 l).2
  else if l = [] then [] else [l]
termination_by l.length
decreasing_by
  exact takeGreedy_snd_length f 0 l (by norm_num [MAX_SIZE_PER_CHUNK]) h.2

theorem MAX_SIZE_pos : (0 : ℚ) < MAX_SIZE_PER_CHUNK := by
  norm_num [MAX_SIZE_PER_CHUNK]

theorem splitLoop_flatten_aux (f : ℕ → ℚ) :
    ∀ (n : ℕ) (remain : ℚ) (l : List SharedModule), l.length ≤ n →
      (splitLoop f remain l).flatten = l := by
  intro n
  induction n with
  | zero =>
    intro remain l hl
    have : l = [] := List.length_eq_zero.mp (Nat.le_zero.mp hl)
    subst this
    rw [splitLoop]
    simp
  | succ n ih =>
    intro remain l hl
    rw [splitLoop]
    by_cases h : MAX_SIZE_PER_CHUNK < remain ∧ l ≠ []
    · rw [dif_pos h]
      have hlen := takeGreedy_snd_length f 0 l MAX_SIZE_pos h.2
      rw [List.flatten_cons, ih _ _ (by omega), takeGreedy_append]
    · rw [dif_neg h]
      by_cases hl' : l = []
      · simp [hl']
      · simp [hl']

theorem splitLoop_flatten (f : ℕ → ℚ) (remain : ℚ) (l : List SharedModule) :
    (splitLoop f remain l).flatten = l :=
  splitLoop_flatten_aux f l.length remain l le_rfl

theorem splitLoop_ne_nil_aux (f : ℕ → ℚ) :
    ∀ (n : ℕ) (remain : ℚ) (l : List SharedModule), l.length ≤ n →
      ∀ b ∈ splitLoop f remain l, b ≠ [] := by
  intro n
  induction n with
  | zero =>
    intro remain l hl
    have : l = [] := List.length_eq_zero.mp (Nat.le_zero.mp hl)
    subst this
    rw [splitLoop]
    simp
  | succ n ih =>
    intro remain l hl
    rw [splitLoop]
    by_cases h : MAX_SIZE_PER_CHUNK < remain ∧ l ≠ []
    · rw [dif_pos h]
      intro b hb
      rcases List.mem_cons.mp hb with rfl | hb
      · exact takeGreedy_fst_ne_nil f 0 l MAX_SIZE_pos h.2
      · have hlen := takeGreedy_snd_length f 0 l MAX_SIZE_pos h.2
        exact ih _ _ (by omega) b hb
    · rw [dif_neg h]
      by_cases hl' : l = []
      · simp [hl']
      · simp only [if_neg hl']
        intro b hb
        rcases List.mem_singleton.mp hb with rfl
        exact hl'

theorem splitLoop_ne_nil (f : ℕ → ℚ) (remain : ℚ) (l : List SharedModule) :
    ∀ b ∈ splitLoop f remain l, b ≠ [] :=
  splitLoop_ne_nil_aux f l.length remain l le_rfl

theorem splitLoop_dropLast_bound_aux (f : ℕ → ℚ) :
    ∀ (n : ℕ) (remain : ℚ) (l : List SharedModule), l.length ≤ n →
      ∀ b ∈ (splitLoop f remain l).dropLast,
        listSum f b.dropLast < MAX_SIZE_PER_CHUNK ∧
          MAX_SIZE_PER_CHUNK ≤ listSum f b := by
  intro n
  induction n with
  | zero =>
    intro remain l hl
    have : l = [] := List.length_eq_zero.mp (Nat.le_zero.mp hl)
    subst this
    rw [splitLoop]
    simp
  | succ n ih =>
    intro remain l hl
    rw [splitLoop]
    by_cases h : MAX_SIZE_PER_CHUNK < remain ∧ l ≠ []
    · rw [dif_pos h]
      intro b hb
      rcases hrest : splitLoop f (remain - listSum f (takeGreedy f 0 l).1)
          (takeGreedy f 0 l).2 with _ | ⟨b2, bs⟩
      · rw [hrest] at hb
        simp at hb
      · rw [hrest, List.dropLast_cons_of_ne_nil (by simp)] at hb
        rcases List.mem_cons.mp hb with rfl | hb
        · have hne2 : (takeGreedy f 0 l).2 ≠ [] := by
            intro h2
            rw [splitLoop, h2] at hrest
            simp at hrest
          refine ⟨?_, ?_⟩
          · have := takeGreedy_dropLast_size f 0 l
              (takeGreedy_fst_ne_nil f 0 l MAX_SIZE_pos h.2)
            linarith
          · have := takeGreedy_snd_ne_nil_size f 0 l hne2
            linarith
        · have hlen := takeGreedy_snd_length f 0 l MAX_SIZE_pos h.2
          have := ih (remain - listSum f (takeGreedy f 0 l).1)
            (takeGreedy f 0 l).2 (by omega)
          rw [hrest] at this
          exact this b hb
    · rw [dif_neg h]
      by_cases hl' : l = []
      · simp [hl']
      · simp [hl']

/-- Every batch of the re-split except possibly the last one was closed by
the size check: its raw size without its final module is still below the
cap, while its full raw size has reached the cap. -/
theorem splitLoop_dropLast_bound (f : ℕ → ℚ) (remain : ℚ) (l : List SharedModule) :
    ∀ b ∈ (splitLoop f remain l).dropLast,
      listSum f b.dropLast < MAX_SIZE_PER_CHUNK ∧
        MAX_SIZE_PER_CHUNK ≤ listSum f b :=
  splitLoop_dropLast_bound_aux f l.length remain l le_rfl

/-- The weighted size estimate of a window (plugin.rs lines 76-96): sum of
`size * coefficient` over the window's modules. -/
def windowWeightedSize (data : ℕ → ModuleData) (w : List SharedModule) : ℚ :=
  (w.map fun sm => (data sm.module).size * coefficient (data sm.module).moduleType).sum

/-- Level-2 processing of one window (plugin.rs lines 75-124): if the
weighted size estimate exceeds `MAX_SIZE_PER_CHUNK`, re-split the window
greedily by raw size starting from the weighted remainder, otherwise emit
the window as a single batch. -/
def processWindow (data : ℕ → ModuleData) (w : List SharedModule) :
    List (List SharedModule) :=
  if MAX_SIZE_PER_CHUNK < windowWeightedSize data w then
    splitLoop (fun i => (data i).size) (windowWeightedSize data w) w
  else [w]

theorem processWindow_flatten (data : ℕ → ModuleData) (w : List SharedModule) :
    (processWindow data w).flatten = w := by
  unfold processWindow
  by_cases h : MAX_SIZE_PER_CHUNK < windowWeightedSize data w
  · rw [if_pos h, splitLoop_flatten]
  · rw [if_neg h]
    simp

theorem processWindow_ne_nil (data : ℕ → ModuleData) (w : List SharedModule)
    (hw : w ≠ []) : ∀ b ∈ processWindow data w, b ≠ [] := by
  unfold processWindow
  by_cases h : MAX_SIZE_PER_CHUNK < windowWeightedSize data w
  · rw [if_pos h]
    exact splitLoop_ne_nil _ _ _
  · rw [if_neg h]
    intro b hb
    rcases List.mem_singleton.mp hb with rfl
    exact hw

theorem parChunks_flatten {α : Type} :
    ∀ (n : ℕ) (l : List α), l.length ≤ n → (parChunks l).flatten = l := by
  intro n
  induction n with
  | zero =>
    intro l hl
    have : l = [] := List.length_eq_zero.mp (Nat.le_zero.mp hl)
    subst this
    simp [parChunks_nil]
  | succ n ih =>
    intro l hl
    by_cases h : l = []
    · simp [h, parChunks_nil]
    · rw [parChunks_cons l h, List.flatten_cons,
        ih _ (by
          simp only [List.length_drop, MAX_MODULES_PER_CHUNK]
          have : l.length ≠ 0 := fun h0 => h (List.length_eq_zero.mp h0)
          omega),
        List.take_append_drop]

theorem parChunks_window_length {α : Type} :
    ∀ (n : ℕ) (l : List α), l.length ≤ n →
      ∀ w ∈ parChunks l, w.length ≤ MAX_MODULES_PER_CHUNK := by
  intro n
  induction n with
  | zero =>
    intro l hl
    have : l = [] := List.length_eq_zero.mp (Nat.le_zero.mp hl)
    subst this
    simp [parChunks_nil]
  | succ n ih =>
    intro l hl
    by_cases h : l = []
    · simp [h, parChunks_nil]
    · rw [parChunks_cons l h]
      intro w hw
      rcases List.mem_cons.mp hw with rfl | hw
      · simpa using Nat.min_le_left _ _
      · refine ih _ ?_ w hw
        simp only [List.length_drop, MAX_MODULES_PER_CHUNK]
        have : l.length ≠ 0 := fun h0 => h (List.length_eq_zero.mp h0)
        omega

theorem parChunks_window_ne_nil {α : Type} :
    ∀ (n : ℕ) (l : List α), l.length ≤ n → ∀ w ∈ parChunks l, w ≠ [] := by
  intro n
  induction n with
  | zero =>
    intro l hl
    have : l = [] := List.length_eq_zero.mp (Nat.le_zero.mp hl)
    subst this
    simp [parChunks_nil]
  | succ n ih =>
    intro l hl
    by_cases h : l = []
    · simp [h, parChunks_nil]
    · rw [parChunks_cons l h]
      intro w hw
      rcases List.mem_cons.mp hw with rfl | hw
      · intro htake
        have := congrArg List.length htake
        simp only [List.length_take, List.length_nil, MAX_MODULES_PER_CHUNK] at this
        have hne : l.length ≠ 0 := fun h0 => h (List.length_eq_zero.mp h0)
        omega
      · refine ih _ ?_ w hw
        simp only [List.length_drop, MAX_MODULES_PER_CHUNK]
        have : l.length ≠ 0 := fun h0 => h (List.length_eq_zero.mp h0)
        omega

/-- The `module_by_identifier` view used by the grouper; callers guard
every lookup with `allPresent`, mirroring the `.expect` panic sites, so
the `default` fallback is never reached on inputs the pass accepts. -/
def dataOf (c : Compilation) : ℕ → ModuleData :=
  fun i => (c.moduleGraph i).getD default

/-- Size-Aware Grouper (plugin.rs lines 73-125): level-1 count windows,
then level-2 size re-split, flattened in window order. -/
def batchesOf (c : Compilation) : List (List SharedModule) :=
  (parChunks (sharedOf c)).flatMap (processWindow (dataOf c))

/-- One batch of the Chunk Synthesizer's inverse-index update
(plugin.rs lines 146-151): add the new chunk's ukey `u` to
`chunk_graph_module.chunks` of every module of the batch. -/
def insertBatch (u : ℕ) (b : List SharedModule) (mc : ℕ → Finset ℕ) : ℕ → Finset ℕ :=
  b.foldl (fun mc sm => Function.update mc sm.module (insert u (mc sm.module))) mc

/-- The Chunk Synthesizer's inverse-index updates over all batches, the
batch at position `i` receiving the fresh ukey `start + i` (each
`Chunk::new` draws a distinct fresh ukey). -/
def insertBatches (start : ℕ) : List (List SharedModule) → (ℕ → Finset ℕ) → (ℕ → Finset ℕ)
  | [], mc => mc
  | b :: bs, mc => insertBatches (start + 1) bs (insertBatch start b mc)

/-- One invocation of `old_chunk.split(new_chunk, ...)` (plugin.rs lines
162-170), recorded together with the old chunk's module set as observed at
the moment of the call. -/
structure SplitEvent where
  oldChunk : ℕ
  newChunk : ℕ
  observed : Finset ℕ
deriving DecidableEq

/-- Graph Rewriter phase 1 (plugin.rs lines 161-170): for every batch, for
every module, for every original referencing chunk, invoke the old chunk's
split operation against the batch's new chunk.  `cm` is the
chunk-to-modules index at the time of the phase; each event records the
module set the old chunk has at that point. -/
def recordSplits (start : ℕ) (cm : ℕ → Finset ℕ) : List (List SharedModule) → List SplitEvent
  | [] => []
  | b :: bs =>
    (b.flatMap fun sm =>
      (Finset.sort (· ≤ ·) sm.ref_chunks).map fun old =>
        SplitEvent.mk old start (cm old)) ++
      recordSplits (start + 1) cm bs

/-- Graph Rewriter phase 2 (plugin.rs lines 172-178): register every new
chunk and its chunk-graph-chunk record (whose module set is exactly the
batch's module identities). -/
def registerChunks (start : ℕ) : List (List SharedModule) → Compilation → Compilation
  | [], st => st
  | b :: bs, st =>
    registerChunks (start + 1) bs
      { st with
        chunkModules :=
          Function.update st.chunkModules start (b.map fun sm => sm.module).toFinset,
        chunks := insert start st.chunks }

/-- `disconnect_chunk_and_module` removes the module-chunk association in
both directions of the index. -/
def disconnectChunkAndModule (oldChunk m : ℕ) (st : Compilation) : Compilation :=
  { st with
    moduleChunks := Function.update st.moduleChunks m ((st.moduleChunks m).erase oldChunk),
    chunkModules := Function.update st.chunkModules oldChunk ((st.chunkModules oldChunk).erase m) }

/-- Disconnect one shared module from every chunk that referenced it
before the pass (plugin.rs lines 182-186). -/
def disconnectOne (sm : SharedModule) (st : Compilation) : Compilation :=
  (Finset.sort (· ≤ ·) sm.ref_chunks).foldl
    (fun st old => disconnectChunkAndModule old sm.module st) st

/-- Graph Rewriter phase 3 (plugin.rs lines 180-187): disconnect every
shared module from all its original chunks. -/
def disconnectAll (shared : List SharedModule) (st : Compilation) : Compilation :=
  shared.foldl (fun st sm => disconnectOne sm st) st

/-- State after the Chunk Synthesizer ran (plugin.rs lines 135-157): only
the module-to-chunks inverse index has been touched. -/
def st1Of (c : Compilation) : Compilation :=
  { c with moduleChunks := insertBatches c.nextUkey (batchesOf c) c.moduleChunks }

/-- The split events of Graph Rewriter phase 1, reading the
chunk-to-modules index as it stands after synthesis. -/
def eventsOf (c : Compilation) : List SplitEvent :=
  recordSplits c.nextUkey (st1Of c).chunkModules (batchesOf c)

/-- State after Graph Rewriter phase 2. -/
def st2Of (c : Compilation) : Compilation :=
  registerChunks c.nextUkey (batchesOf c) (st1Of c)

/-- State after Graph Rewriter phase 3, the final state of the pass. -/
def st3Of (c : Compilation) : Compilation :=
  disconnectAll (sharedOf c) (st2Of c)

/-- Everything `optimize_chunks` produces: the rewritten compilation, the
emitted batches in order, the fresh ukeys of the new chunks, each new
chunk's `chunk_reasons`, and the recorded split invocations. -/
structure PassResult where
  final : Compilation
  batches : List (List SharedModule)
  newChunkUkeys : List ℕ
  reasons : List (List String)
  splitEvents : List SplitEvent

/-- The successful run of the pass. -/
def passResult (c : Compilation) : PassResult :=
  { final := st3Of c
    batches := batchesOf c
    newChunkUkeys := (List.range (batchesOf c).length).map fun i => c.nextUkey + i
    reasons := (batchesOf c).map fun _ => ["Split with ref count> 1"]
    splitEvents := eventsOf c }

/-- The grouper looks every shared module up via `module_by_identifier`
(plugin.rs lines 79-82 and 105-110); `allPresent` states that all those
lookups succeed. -/
def allPresent (c : Compilation) : Prop :=
  ∀ sm ∈ sharedOf c, (c.moduleGraph sm.module).isSome = true

instance (c : Compilation) : Decidable (allPresent c) :=
  List.decidableBAll _ _

/-- The whole pass `optimize_chunks`: if some shared module is missing
from the module graph the `.expect("Should have a module here")` panic
aborts the pass with that fixed message; otherwise the
detect/sort/group/synthesize/rewrite pipeline runs to completion. -/
def optimize_chunks (c : Compilation) : Except String PassResult :=
  if allPresent c then .ok (passResult c) else .error "Should have a module here"

/-- Well-formedness of the input compilation: every chunk ukey already
referenced by a module of the graph is older than the fresh-ukey counter,
and the module enumeration lists each module once. -/
def WF (c : Compilation) : Prop :=
  (∀ m ∈ c.modules, ∀ u ∈ c.moduleChunks m, u < c.nextUkey) ∧ c.modules.Nodup

instance (c : Compilation) : Decidable (WF c) := by
  unfold WF
  infer_instance

theorem mem_detectShared (c : Compilation) (sm : SharedModule) :
    sm ∈ detectShared c ↔
      sm.module ∈ c.modules ∧ sm.ref_chunks = c.moduleChunks sm.module ∧
        1 < (c.moduleChunks sm.module).card := by
  unfold detectShared
  rw [List.mem_filter, List.mem_map]
  constructor
  · rintro ⟨⟨m, hm, rfl⟩, hcard⟩
    exact ⟨hm, rfl, by simpa using hcard⟩
  · rintro ⟨hm, hset, hcard⟩
    refine ⟨⟨sm.module, hm, ?_⟩, ?_⟩
    · cases sm
      simp_all
    · simpa [hset] using hcard
  
theorem detectShared_module_inj (c : Compilation) (a b : SharedModule)
    (ha : a ∈ detectShared c) (hb : b ∈ detectShared c)
    (hab : a.module = b.module) : a = b := by
  rcases (mem_detectShared c a).mp ha with ⟨_, ha2, _⟩
  rcases (mem_detectShared c b).mp hb with ⟨_, hb2, _⟩
  cases a
  cases b
  simp only at ha2 hb2 hab
  subst hab
  rw [ha2, hb2]

theorem detectShared_map_module_nodup (c : Compilation) (h : c.modules.Nodup) :
    ((detectShared c).map fun sm => sm.module).Nodup := by
  have hsub : ((detectShared c).map fun sm => sm.module).Sublist
      ((c.modules.map fun m => SharedModule.mk m (c.moduleChunks m)).map
        fun sm => sm.module) :=
    List.Sublist.map _ (List.filter_sublist _)
  have : ((c.modules.map fun m => SharedModule.mk m (c.moduleChunks m)).map
      fun sm => sm.module) = c.modules := by
    rw [List.map_map]
    simp [Function.comp_def]
  rw [this] at hsub
  exact h.sublist hsub

theorem sharedOf_map_module_nodup (c : Compilation) (h : c.modules.Nodup) :
    ((sharedOf c).map fun sm => sm.module).Nodup := by
  have hp : List.Perm ((sharedOf c).map fun sm => sm.module)
      ((detectShared c).map fun sm => sm.module) :=
    (sortShared_perm (detectShared c)).map _
  exact hp.nodup_iff.mpr (detectShared_map_module_nodup c h)

theorem mem_sharedOf (c : Compilation) (sm : SharedModule) :
    sm ∈ sharedOf c ↔ sm ∈ detectShared c :=
  (sortShared_perm (detectShared c)).mem_iff

theorem batchesOf_flatten (c : Compilation) :
    (batchesOf c).flatten = sharedOf c := by
  unfold batchesOf
  have : ∀ ws : List (List SharedModule),
      ((ws.flatMap (processWindow (dataOf c))).flatten) = ws.flatten := by
    intro ws
    induction ws with
    | nil => simp
    | cons w ws ih =>
      rw [List.flatMap_cons, List.flatten_append, ih, List.flatten_cons,
        processWindow_flatten]
  rw [this, parChunks_flatten (sharedOf c).length _ le_rfl]

theorem batchesOf_ne_nil (c : Compilation) : ∀ b ∈ batchesOf c, b ≠ [] := by
  unfold batchesOf
  intro b hb
  rcases List.mem_flatMap.mp hb with ⟨w, hw, hbw⟩
  have hwne := parChunks_window_ne_nil (sharedOf c).length _ le_rfl w hw
  exact processWindow_ne_nil (dataOf c) w hwne b hbw

theorem insertBatch_apply (u : ℕ) (b : List SharedModule) (mc : ℕ → Finset ℕ)
    (x : ℕ) :
    insertBatch u b mc x =
      if x ∈ b.map (fun sm => sm.module) then insert u (mc x) else mc x := by
  induction b generalizing mc with
  | nil => simp [insertBatch]
  | cons sm b ih =>
    rw [insertBatch, List.foldl_cons]
    rw [show (b.foldl (fun mc sm => Function.update mc sm.module
        (insert u (mc sm.module))) (Function.update mc sm.module
        (insert u (mc sm.module)))) = insertBatch u b (Function.update mc
        sm.module (insert u (mc sm.module))) from rfl]
    rw [ih]
    by_cases hx : x = sm.module
    · subst hx
      simp [Function.update_same, Finset.insert_idem]
    · simp only [List.map_cons, List.mem_cons, Function.update_noteq hx]
      have : (x = sm.module) = False := by simp [hx]
      simp [hx]

theorem insertBatches_apply_not_mem (start : ℕ) (bs : List (List SharedModule))
    (mc : ℕ → Finset ℕ) (x : ℕ)
    (hx : x ∉ bs.flatten.map fun sm => sm.module) :
    insertBatches start bs mc x = mc x := by
  induction bs generalizing start mc with
  | nil => simp [insertBatches]
  | cons b bs ih =>
    simp only [List.flatten_cons, List.map_append, List.mem_append] at hx
    push_neg at hx
    rw [insertBatches, ih _ _ hx.2, insertBatch_apply, if_neg hx.1]

theorem insertBatches_apply_mem (start : ℕ) (bs : List (List SharedModule))
    (mc : ℕ → Finset ℕ) (x : ℕ)
    (hnd : (bs.flatten.map fun sm => sm.module).Nodup)
    (hx : x ∈ bs.flatten.map fun sm => sm.module) :
    ∃ i < bs.length, insertBatches start bs mc x = insert (start + i) (mc x) := by
  induction bs generalizing start mc with
  | nil => simp at hx
  | cons b bs ih =>
    simp only [List.flatten_cons, List.map_append, List.mem_append] at hx
    rw [List.flatten_cons, List.map_append] at hnd
    rcases hx with hx | hx
    · have hx2 : x ∉ bs.flatten.map fun sm => sm.module :=
        fun hmem => (List.disjoint_of_nodup_append hnd) hx hmem
      refine ⟨0, by simp, ?_⟩
      rw [insertBatches, insertBatches_apply_not_mem _ _ _ _ hx2,
        insertBatch_apply, if_pos hx, Nat.add_zero]
    · rcases ih (start + 1) (insertBatch start b mc) (hnd.of_append_right) hx
        with ⟨i, hi, heq⟩
      have hx1 : x ∉ b.map fun sm => sm.module :=
        fun hmem => (List.disjoint_of_nodup_append hnd) hmem hx
      refine ⟨i + 1, by simp [Nat.succ_lt_succ hi], ?_⟩
      rw [insertBatches, heq, insertBatch_apply, if_neg hx1]
      congr 1
      omega

theorem registerChunks_moduleChunks (start : ℕ) (bs : List (List SharedModule))
    (st : Compilation) :
    (registerChunks start bs st).moduleChunks = st.moduleChunks := by
  induction bs generalizing start st with
  | nil => rfl
  | cons b bs ih => rw [registerChunks, ih]

theorem registerChunks_modules (start : ℕ) (bs : List (List SharedModule))
    (st : Compilation) :
    (registerChunks start bs st).modules = st.modules := by
  induction bs generalizing start st with
  | nil => rfl
  | cons b bs ih => rw [registerChunks, ih]

theorem registerChunks_moduleGraph (start : ℕ) (bs : List (List SharedModule))
    (st : Compilation) :
    (registerChunks start bs st).moduleGraph = st.moduleGraph := by
  induction bs generalizing start st with
  | nil => rfl
  | cons b bs ih => rw [registerChunks, ih]

theorem registerChunks_nextUkey (start : ℕ) (bs : List (List SharedModule))
    (st : Compilation) :
    (registerChunks start bs st).nextUkey = st.nextUkey := by
  induction bs generalizing start st with
  | nil => rfl
  | cons b bs ih => rw [registerChunks, ih]

/-- The union of `ref_chunks` over the entries of `L` whose module
identifier is `x`: exactly what phase 3 removes from module `x`'s chunk
set. -/
def removedBy : List SharedModule → ℕ → Finset ℕ
  | [], _ => ∅
  | sm :: L, x => (if sm.module = x then sm.ref_chunks else ∅) ∪ removedBy L x

theorem disconnectOne_moduleChunks (sm : SharedModule) (st : Compilation)
    (x : ℕ) :
    (disconnectOne sm st).moduleChunks x =
      if x = sm.module then st.moduleChunks x \ sm.ref_chunks
      else st.moduleChunks x := by
  have haux : ∀ (L : List ℕ) (st : Compilation),
      ((L.foldl (fun st old => disconnectChunkAndModule old sm.module st) st).moduleChunks x) =
        if x = sm.module then st.moduleChunks x \ L.toFinset
        else st.moduleChunks x := by
    intro L
    induction L with
    | nil =>
      intro st
      by_cases h : x = sm.module <;> simp [h]
    | cons old L ih =>
      intro st
      rw [List.foldl_cons, ih]
      by_cases h : x = sm.module
      · rw [if_pos h, if_pos h]
        subst h
        simp only [disconnectChunkAndModule, Function.update_same]
        rw [Finset.erase_eq, sdiff_sdiff]
        congr 1
        simp [Finset.insert_eq]
      · rw [if_neg h, if_neg h]
        simp only [disconnectChunkAndModule]
        rw [Function.update_noteq h]
  unfold disconnectOne
  rw [haux]
  congr 1
  rw [Finset.sort_toFinset]

theorem disconnectAll_moduleChunks (L : List SharedModule) (st : Compilation)
    (x : ℕ) :
    (disconnectAll L st).moduleChunks x = st.moduleChunks x \ removedBy L x := by
  induction L generalizing st with
  | nil => simp [disconnectAll, removedBy]
  | cons sm L ih =>
    rw [disconnectAll, List.foldl_cons]
    rw [show (L.foldl (fun st sm => disconnectOne sm st) (disconnectOne sm st)) =
      disconnectAll L (disconnectOne sm st) from rfl]
    rw [ih, disconnectOne_moduleChunks, removedBy]
    by_cases h : x = sm.module
    · rw [if_pos h, if_pos (h.symm), sdiff_sdiff, Finset.sup_eq_union]
    · rw [if_neg h, if_neg (fun hc => h hc.symm), Finset.empty_union]

theorem disconnectAll_modules (L : List SharedModule) (st : Compilation) :
    (disconnectAll L st).modules = st.modules := by
  induction L generalizing st with
  | nil => rfl
  | cons sm L ih =>
    rw [disconnectAll, List.foldl_cons]
    rw [show (L.foldl (fun st sm => disconnectOne sm st) (disconnectOne sm st)) =
      disconnectAll L (disconnectOne sm st) from rfl]
    rw [ih]
    unfold disconnectOne
    generalize Finset.sort (fun a b => a ≤ b) sm.ref_chunks = L2
    induction L2 generalizing st with
    | nil => rfl
    | cons old L2 ih2 =>
      rw [List.foldl_cons, ih2]
      rfl

theorem disconnectAll_moduleGraph (L : List SharedModule) (st : Compilation) :
    (disconnectAll L st).moduleGraph = st.moduleGraph := by
  induction L generalizing st with
  | nil => rfl
  | cons sm L ih =>
    rw [disconnectAll, List.foldl_cons]
    rw [show (L.foldl (fun st sm => disconnectOne sm st) (disconnectOne sm st)) =
      disconnectAll L (disconnectOne sm st) from rfl]
    rw [ih]
    unfold disconnectOne
    generalize Finset.sort (fun a b => a ≤ b) sm.ref_chunks = L2
    induction L2 generalizing st with
    | nil => rfl
    | cons old L2 ih2 =>
      rw [List.foldl_cons, ih2]
      rfl

theorem disconnectAll_nextUkey (L : List SharedModule) (st : Compilation) :
    (disconnectAll L st).nextUkey = st.nextUkey := by
  induction L generalizing st with
  | nil => rfl
  | cons sm L ih =>
    rw [disconnectAll, List.foldl_cons]
    rw [show (L.foldl (fun st sm => disconnectOne sm st) (disconnectOne sm st)) =
      disconnectAll L (disconnectOne sm st) from rfl]
    rw [ih]
    unfold disconnectOne
    generalize Finset.sort (fun a b => a ≤ b) sm.ref_chunks = L2
    induction L2 generalizing st with
    | nil => rfl
    | cons old L2 ih2 =>
      rw [List.foldl_cons, ih2]
      rfl

theorem removedBy_eq_empty (L : List SharedModule) (x : ℕ)
    (h : ∀ sm ∈ L, sm.module ≠ x) : removedBy L x = ∅ := by
  induction L with
  | nil => rfl
  | cons sm L ih =>
    rw [removedBy, if_neg (h sm (List.mem_cons_self sm L)),
      ih fun sm' h' => h sm' (List.mem_cons_of_mem _ h'), Finset.empty_union]

theorem removedBy_eq_of_unique (L : List SharedModule) (sm : SharedModule)
    (hnd : (L.map fun sm => sm.module).Nodup) (hsm : sm ∈ L) :
    removedBy L sm.module = sm.ref_chunks := by
  induction L with
  | nil => simp at hsm
  | cons a L ih =>
    rw [List.map_cons, List.nodup_cons] at hnd
    rcases List.mem_cons.mp hsm with rfl | hsm
    · rw [removedBy, if_pos rfl,
        removedBy_eq_empty L sm.module
          (fun b hb hbx => hnd.1 (hbx ▸ List.mem_map_of_mem _ hb)),
        Finset.union_empty]
    · have hax : a.module ≠ sm.module := fun h =>
        hnd.1 (h ▸ List.mem_map_of_mem _ hsm)
      rw [removedBy, if_neg hax, ih hnd.2 hsm, Finset.empty_union]

theorem st3Of_modules (c : Compilation) : (st3Of c).modules = c.modules := by
  unfold st3Of st2Of
  rw [disconnectAll_modules, registerChunks_modules]
  rfl

theorem st3Of_moduleGraph (c : Compilation) :
    (st3Of c).moduleGraph = c.moduleGraph := by
  unfold st3Of st2Of
  rw [disconnectAll_moduleGraph, registerChunks_moduleGraph]
  rfl

theorem st3Of_nextUkey (c : Compilation) : (st3Of c).nextUkey = c.nextUkey := by
  unfold st3Of st2Of
  rw [disconnectAll_nextUkey, registerChunks_nextUkey]
  rfl

/-- Core effect of the pass on formerly shared modules: after all three
rewrite phases, a module referenced by more than one chunk is referenced
by exactly the one fresh chunk of the unique batch containing it. -/
theorem st3Of_moduleChunks_shared (c : Compilation) (hwf : WF c) (m : ℕ)
    (hm : m ∈ c.modules) (hcard : 1 < (c.moduleChunks m).card) :
    ∃ i < (batchesOf c).length,
      (st3Of c).moduleChunks m = {c.nextUkey + i} := by
  have hsm : SharedModule.mk m (c.moduleChunks m) ∈ detectShared c :=
    (mem_detectShared c _).mpr ⟨hm, rfl, hcard⟩
  have hsm2 : SharedModule.mk m (c.moduleChunks m) ∈ sharedOf c :=
    (mem_sharedOf c _).mpr hsm
  have hflat : (batchesOf c).flatten = sharedOf c := batchesOf_flatten c
  have hndid : ((batchesOf c).flatten.map fun sm => sm.module).Nodup := by
    rw [hflat]
    exact sharedOf_map_module_nodup c hwf.2
  have hmem : m ∈ (batchesOf c).flatten.map fun sm => sm.module := by
    rw [hflat]
    exact List.mem_map_of_mem _ hsm2
  rcases insertBatches_apply_mem c.nextUkey (batchesOf c) c.moduleChunks m
    hndid hmem with ⟨i, hi, hins⟩
  refine ⟨i, hi, ?_⟩
  have hrem : removedBy (sharedOf c) m = c.moduleChunks m := by
    have := removedBy_eq_of_unique (sharedOf c)
      (SharedModule.mk m (c.moduleChunks m))
      (sharedOf_map_module_nodup c hwf.2) hsm2
    simpa using this
  have hu : c.nextUkey + i ∉ c.moduleChunks m := by
    intro hin
    have := hwf.1 m hm _ hin
    omega
  unfold st3Of
  rw [disconnectAll_moduleChunks]
  unfold st2Of
  rw [registerChunks_moduleChunks]
  show insertBatches c.nextUkey (batchesOf c) c.moduleChunks m \
    removedBy (sharedOf c) m = _
  rw [hins, hrem]
  ext a
  simp only [Finset.mem_sdiff, Finset.mem_insert, Finset.mem_singleton]
  constructor
  · rintro ⟨rfl | ha, hna⟩
    · rfl
    · exact absurd ha hna
  · rintro rfl
    exact ⟨Or.inl rfl, hu⟩

/-- Core effect of the pass on modules that were not shared: their chunk
membership is untouched. -/
theorem st3Of_moduleChunks_unshared (c : Compilation) (m : ℕ)
    (hcard : ¬ 1 < (c.moduleChunks m).card) :
    (st3Of c).moduleChunks m = c.moduleChunks m := by
  have hno : ∀ sm ∈ sharedOf c, sm.module ≠ m := by
    intro sm hsm heq
    rcases (mem_detectShared c sm).mp ((mem_sharedOf c sm).mp hsm)
      with ⟨_, _, hc⟩
    rw [heq] at hc
    exact hcard hc
  have hflat : (batchesOf c).flatten = sharedOf c := batchesOf_flatten c
  have hmem : m ∉ (batchesOf c).flatten.map fun sm => sm.module := by
    rw [hflat]
    intro hmem
    rcases List.mem_map.mp hmem with ⟨sm, hsm, heq⟩
    exact hno sm hsm heq
  unfold st3Of
  rw [disconnectAll_moduleChunks]
  unfold st2Of
  rw [registerChunks_moduleChunks]
  show insertBatches c.nextUkey (batchesOf c) c.moduleChunks m \
    removedBy (sharedOf c) m = _
  rw [insertBatches_apply_not_mem _ _ _ _ hmem, removedBy_eq_empty _ _ hno,
    Finset.sdiff_empty]

/-- Concrete compilation for witnesses, following spec Example A: modules
`10, 11, 12`, chunks `1 = [10, 11]` and `2 = [11, 12]`; module `11` is the
only shared one. -/
def cA : Compilation where
  modules := [10, 11, 12]
  moduleGraph := fun _ => some ⟨ModuleType.other, 100⟩
  moduleChunks := fun m =>
    if m = 10 then {1} else if m = 11 then {1, 2} else if m = 12 then {2} else ∅
  chunkModules := fun u =>
    if u = 1 then {10, 11} else if u = 2 then {11, 12} else ∅
  chunks := {1, 2}
  nextUkey := 3

/-- Claim C1: for every input graph, every module referenced by more than
one chunk before the pass is, after the pass, referenced by exactly one
chunk: it belongs to exactly one newly created chunk and to none of its
original chunks; and every module referenced by at most one chunk before
the pass has its chunk membership unchanged. -/
theorem no_residual_sharing (c : Compilation) (hwf : WF c) (hap : allPresent c)
    (m : ℕ) (hm : m ∈ c.modules) :
    optimize_chunks c = Except.ok (passResult c) ∧
    (1 < (c.moduleChunks m).card →
      ∃ u, (passResult c).final.moduleChunks m = {u} ∧
        u ∈ (passResult c).newChunkUkeys ∧ u ∉ c.moduleChunks m) ∧
    ((c.moduleChunks m).card ≤ 1 →
      (passResult c).final.moduleChunks m = c.moduleChunks m) := by
  refine ⟨by rw [optimize_chunks, if_pos hap], ?_, ?_⟩
  · intro hcard
    rcases st3Of_moduleChunks_shared c hwf m hm hcard with ⟨i, hi, heq⟩
    refine ⟨c.nextUkey + i, heq, ?_, ?_⟩
    · show c.nextUkey + i ∈
        (List.range (batchesOf c).length).map fun i => c.nextUkey + i
      exact List.mem_map.mpr ⟨i, List.mem_range.mpr hi, rfl⟩
    · intro hin
      have := hwf.1 m hm _ hin
      omega
  · intro hcard
    exact st3Of_moduleChunks_unshared c m (by omega)

theorem no_residual_sharing_witness :
    1 < (cA.moduleChunks 11).card ∧
    (optimize_chunks cA = Except.ok (passResult cA) ∧
    (1 < (cA.moduleChunks 11).card →
      ∃ u, (passResult cA).final.moduleChunks 11 = {u} ∧
        u ∈ (passResult cA).newChunkUkeys ∧ u ∉ cA.moduleChunks 11) ∧
    ((cA.moduleChunks 11).card ≤ 1 →
      (passResult cA).final.moduleChunks 11 = cA.moduleChunks 11)) :=
  ⟨by decide, no_residual_sharing cA (by decide) (by decide) 11 (by decide)⟩

/-- Claim C3: the graph rewrite performs split-recording before
registration and before disconnection (the three phases are `eventsOf`,
`st2Of`, `st3Of`, chained in this order inside `passResult` exactly as in
plugin.rs lines 161-187), so every split-recording invocation on an old
chunk observes that chunk's pre-disconnection module set. -/
theorem split_records_pre_disconnection (c : Compilation) (hap : allPresent c) :
    optimize_chunks c = Except.ok (passResult c) ∧
    ∀ e ∈ (passResult c).splitEvents, e.observed = c.chunkModules e.oldChunk := by
  refine ⟨by rw [optimize_chunks, if_pos hap], ?_⟩
  show ∀ e ∈ eventsOf c, e.observed = c.chunkModules e.oldChunk
  unfold eventsOf
  have hcm : (st1Of c).chunkModules = c.chunkModules := rfl
  rw [hcm]
  generalize c.nextUkey = start
  generalize batchesOf c = bs
  induction bs generalizing start with
  | nil => simp [recordSplits]
  | cons b bs ih =>
    intro e he
    rw [recordSplits] at he
    rcases List.mem_append.mp he with he | he
    · rcases List.mem_flatMap.mp he with ⟨sm, hsm, he2⟩
      rcases List.mem_map.mp he2 with ⟨old, hold, rfl⟩
      rfl
    · exact ih (start + 1) e he

theorem split_records_pre_disconnection_witness :
    optimize_chunks cA = Except.ok (passResult cA) ∧
    ∀ e ∈ (passResult cA).splitEvents, e.observed = cA.chunkModules e.oldChunk :=
  split_records_pre_disconnection cA (by decide)

/-- Claim C6: the sorter imposes a total order over the detected shared
modules, primarily descending by reference count and, for equal reference
counts, ascending by module identity: `sharedLE` is total, transitive and
antisymmetric in the (reference count, identity) key, and the sorter
produces the `sharedLE`-sorted permutation of its input. -/
theorem sorter_total_order (l : List SharedModule) :
    (∀ a b : SharedModule, sharedLE a b ∨ sharedLE b a) ∧
    (∀ a b d : SharedModule, sharedLE a b → sharedLE b d → sharedLE a d) ∧
    (∀ a b : SharedModule, sharedLE a b → sharedLE b a →
      a.ref_chunks.card = b.ref_chunks.card ∧ a.module = b.module) ∧
    List.Perm (sortShared l) l ∧ (sortShared l).Sorted sharedLE := by
  refine ⟨fun a b => IsTotal.total a b,
    fun a b d hab hbd => IsTrans.trans a b d hab hbd, ?_,
    sortShared_perm l, sortShared_sorted l⟩
  intro a b hab hba
  rcases hab with h1 | ⟨h1, h1'⟩ <;> rcases hba with h2 | ⟨h2, h2'⟩
  · exact absurd (h1.trans h2) (lt_irrefl _)
  · exact absurd h1 (by omega)
  · exact absurd h2 (by omega)
  · exact ⟨h1, Nat.le_antisymm h1' h2'⟩

/-- Claim C7: level-1 grouping splits the sorted sequence into consecutive
windows of at most `MAX_MODULES_PER_CHUNK = 500` entries, and a sequence
of 1200 shared modules yields exactly three windows of sizes 500, 500 and
200. -/
theorem count_cap_windows (l : List SharedModule) :
    (∀ w ∈ parChunks l, w.length ≤ MAX_MODULES_PER_CHUNK) ∧
    (l.length = 1200 → (parChunks l).map List.length = [500, 500, 200]) := by
  refine ⟨parChunks_window_length l.length l le_rfl, ?_⟩
  intro h
  have h1 : l ≠ [] := by
    intro h0
    rw [h0] at h
    simp at h
  have hd1 : (l.drop MAX_MODULES_PER_CHUNK).length = 700 := by
    simp [List.length_drop, h, MAX_MODULES_PER_CHUNK]
  have h2 : l.drop MAX_MODULES_PER_CHUNK ≠ [] := by
    intro h0
    rw [h0] at hd1
    simp at hd1
  have hd2 : ((l.drop MAX_MODULES_PER_CHUNK).drop MAX_MODULES_PER_CHUNK).length = 200 := by
    simp only [List.length_drop, MAX_MODULES_PER_CHUNK]
    omega
  have h3 : (l.drop MAX_MODULES_PER_CHUNK).drop MAX_MODULES_PER_CHUNK ≠ [] := by
    intro h0
    rw [h0] at hd2
    simp at hd2
  have hd3 : (((l.drop MAX_MODULES_PER_CHUNK).drop MAX_MODULES_PER_CHUNK).drop
      MAX_MODULES_PER_CHUNK) = [] := by
    rw [← List.length_eq_zero]
    simp only [List.length_drop, MAX_MODULES_PER_CHUNK]
    omega
  rw [parChunks_cons l h1, parChunks_cons _ h2, parChunks_cons _ h3, hd3,
    parChunks_nil]
  simp only [List.map_cons, List.map_nil, List.length_take]
  rw [h, hd1, hd2]
  norm_num [MAX_MODULES_PER_CHUNK]

/-- Concrete 1200-entry shared-module sequence for the C7 witness. -/
def wC7 : List SharedModule := (List.range 1200).map fun i => SharedModule.mk i ∅

theorem count_cap_windows_witness :
    (parChunks wC7).map List.length = [500, 500, 200] :=
  (count_cap_windows wC7).2 (by simp [wC7])

/-- Claim C10: the batches the grouper emits, concatenated in emission
order, are exactly the sorted shared-module sequence (so batches are
pairwise disjoint and nothing is dropped or duplicated), and every emitted
batch is non-empty. -/
theorem batches_partition_sorted (c : Compilation) (hap : allPresent c) :
    optimize_chunks c = Except.ok (passResult c) ∧
    (passResult c).batches.flatten = sharedOf c ∧
    ∀ b ∈ (passResult c).batches, b ≠ [] :=
  ⟨by rw [optimize_chunks, if_pos hap], batchesOf_flatten c, batchesOf_ne_nil c⟩

theorem batches_partition_sorted_witness :
    optimize_chunks cA = Except.ok (passResult cA) ∧
    (passResult cA).batches.flatten = sharedOf cA ∧
    ∀ b ∈ (passResult cA).batches, b ≠ [] :=
  batches_partition_sorted cA (by decide)

/-- Claim C9: re-running the pass on its own output creates zero new
chunks: after a successful run, no module is referenced by more than one
chunk, so the detector (which emits a `SharedModule` only for reference
counts strictly greater than 1) emits nothing and the second run produces
no batches and no new chunk ukeys. -/
theorem idempotence_on_fresh_output (c : Compilation) (hwf : WF c)
    (hap : allPresent c) :
    optimize_chunks c = Except.ok (passResult c) ∧
    detectShared (passResult c).final = [] ∧
    optimize_chunks (passResult c).final =
      Except.ok (passResult (passResult c).final) ∧
    (passResult (passResult c).final).batches = [] ∧
    (passResult (passResult c).final).newChunkUkeys = [] := by
  have hdet : detectShared (passResult c).final = [] := by
    show detectShared (st3Of c) = []
    unfold detectShared
    rw [List.filter_eq_nil]
    intro sm hsm
    rcases List.mem_map.mp hsm with ⟨m, hm, rfl⟩
    rw [st3Of_modules] at hm
    simp only [decide_eq_true_eq, not_lt]
    show ((st3Of c).moduleChunks m).card ≤ 1
    by_cases hcard : 1 < (c.moduleChunks m).card
    · rcases st3Of_moduleChunks_shared c hwf m hm hcard with ⟨i, _, heq⟩
      rw [heq]
      simp
    · rw [st3Of_moduleChunks_unshared c m hcard]
      omega
  have hshared : sharedOf (passResult c).final = [] := by
    unfold sharedOf
    rw [hdet]
    rfl
  have hbat : batchesOf (passResult c).final = [] := by
    unfold batchesOf
    rw [hshared, parChunks_nil]
    rfl
  have hap2 : allPresent (passResult c).final := by
    unfold allPresent
    rw [hshared]
    intro sm h
    simp at h
  refine ⟨by rw [optimize_chunks, if_pos hap], hdet,
    by rw [optimize_chunks, if_pos hap2], hbat, ?_⟩
  show (List.range (batchesOf (passResult c).final).length).map
    (fun i => (passResult c).final.nextUkey + i) = []
  rw [hbat]
  rfl

theorem idempotence_on_fresh_output_witness :
    optimize_chunks cA = Except.ok (passResult cA) ∧
    detectShared (passResult cA).final = [] ∧
    optimize_chunks (passResult cA).final =
      Except.ok (passResult (passResult cA).final) ∧
    (passResult (passResult cA).final).batches = [] ∧
    (passResult (passResult cA).final).newChunkUkeys = [] :=
  idempotence_on_fresh_output cA (by decide) (by decide)

theorem sharedLE_key_antisymm (a b : SharedModule) (hab : sharedLE a b)
    (hba : sharedLE b a) :
    a.ref_chunks.card = b.ref_chunks.card ∧ a.module = b.module := by
  rcases hab with h1 | ⟨h1, h1'⟩ <;> rcases hba with h2 | ⟨h2, h2'⟩
  · exact absurd (h1.trans h2) (lt_irrefl _)
  · exact absurd h1 (by omega)
  · exact absurd h2 (by omega)
  · exact ⟨h1, Nat.le_antisymm h1' h2'⟩

/-- Two `sharedLE`-sorted lists that are permutations of each other and
whose elements are determined by their module identifier are equal: the
unstable sort has a unique result on detector output. -/
theorem sorted_perm_eq :
    ∀ l₁ l₂ : List SharedModule,
      (∀ a ∈ l₁, ∀ b ∈ l₁, a.module = b.module → a = b) →
      List.Perm l₁ l₂ → l₁.Sorted sharedLE → l₂.Sorted sharedLE → l₁ = l₂ := by
  intro l₁
  induction l₁ with
  | nil =>
    intro l₂ _ hp _ _
    exact hp.nil_eq
  | cons a t₁ ih =>
    intro l₂ hinj hp hs₁ hs₂
    cases l₂ with
    | nil => exact absurd hp.symm (by simp)
    | cons b t₂ =>
      have hab : a = b := by
        have hbmem : b ∈ a :: t₁ := hp.symm.subset (List.mem_cons_self b t₂)
        rcases List.mem_cons.mp hbmem with rfl | hbt
        · rfl
        · have hamem : a ∈ b :: t₂ := hp.subset (List.mem_cons_self a t₁)
          rcases List.mem_cons.mp hamem with rfl | hat
          · rfl
          · have h1 : sharedLE a b := List.rel_of_sorted_cons hs₁ b hbt
            have h2 : sharedLE b a := List.rel_of_sorted_cons hs₂ a hat
            exact hinj a (List.mem_cons_self a t₁) b
              (List.mem_cons_of_mem _ hbt) (sharedLE_key_antisymm a b h1 h2).2
      subst hab
      have ht : List.Perm t₁ t₂ := hp.cons_inv
      rw [ih t₂
        (fun x hx y hy => hinj x (List.mem_cons_of_mem _ hx) y
          (List.mem_cons_of_mem _ hy))
        ht hs₁.of_cons hs₂.of_cons]

theorem sortShared_eq_of_perm (l₁ l₂ : List SharedModule)
    (hinj : ∀ a ∈ l₁, ∀ b ∈ l₁, a.module = b.module → a = b)
    (hp : List.Perm l₁ l₂) : sortShared l₁ = sortShared l₂ := by
  apply sorted_perm_eq
  · intro a ha b hb
    exact hinj a ((sortShared_perm l₁).subset ha)
      b ((sortShared_perm l₁).subset hb)
  · exact (sortShared_perm l₁).trans (hp.trans (sortShared_perm l₂).symm)
  · exact sortShared_sorted l₁
  · exact sortShared_sorted l₂

theorem detectShared_perm_of_modules_perm (c : Compilation) (ms : List ℕ)
    (hp : List.Perm c.modules ms) :
    List.Perm (detectShared c) (detectShared { c with modules := ms }) := by
  unfold detectShared
  exact (hp.map _).filter _

theorem sharedOf_eq_of_modules_perm (c : Compilation) (ms : List ℕ)
    (hp : List.Perm c.modules ms) :
    sharedOf c = sharedOf { c with modules := ms } :=
  sortShared_eq_of_perm _ _
    (fun a ha b hb => detectShared_module_inj c a b ha hb)
    (detectShared_perm_of_modules_perm c ms hp)

/-- Claim C8: two runs of the pass over an identical input graph with
identical constants produce identical batch membership and identical
reason strings on the newly created chunks.  The only nondeterminism in
one run is the `par_bridge` enumeration order of the module graph,
modelled by an arbitrary permutation of the `modules` field; the sorter
collapses it. -/
theorem determinism_of_pass (c : Compilation) (ms : List ℕ)
    (hp : List.Perm c.modules ms) :
    (optimize_chunks c).map (fun r => (r.batches, r.reasons)) =
      (optimize_chunks { c with modules := ms }).map
        fun r => (r.batches, r.reasons) := by
  have hsh : sharedOf c = sharedOf { c with modules := ms } :=
    sharedOf_eq_of_modules_perm c ms hp
  have hbat : batchesOf c = batchesOf { c with modules := ms } := by
    unfold batchesOf
    rw [hsh]
    rfl
  have hap : allPresent c ↔ allPresent { c with modules := ms } := by
    unfold allPresent
    rw [hsh]
  by_cases h : allPresent c
  · rw [optimize_chunks, optimize_chunks, if_pos h, if_pos (hap.mp h)]
    show Except.ok ((passResult c).batches, (passResult c).reasons) = _
    show _ = Except.ok ((passResult { c with modules := ms }).batches,
      (passResult { c with modules := ms }).reasons)
    show Except.ok (batchesOf c, (batchesOf c).map fun _ => ["Split with ref count> 1"]) = _
    rw [hbat]
    rfl
  · rw [optimize_chunks, optimize_chunks, if_neg h,
      if_neg fun h2 => h (hap.mpr h2)]

theorem determinism_of_pass_witness :
    (optimize_chunks cA).map (fun r => (r.batches, r.reasons)) =
      (optimize_chunks { cA with modules := [12, 11, 10] }).map
        fun r => (r.batches, r.reasons) :=
  determinism_of_pass cA [12, 11, 10] (by decide)

/-- Compilation whose only module, `5`, is shared by chunks 1 and 2 but
absent from the module graph. -/
def cMissing5 : Compilation where
  modules := [5]
  moduleGraph := fun _ => none
  moduleChunks := fun m => if m = 5 then {1, 2} else ∅
  chunkModules := fun u => if u = 1 then {5} else if u = 2 then {5} else ∅
  chunks := {1, 2}
  nextUkey := 3

/-- Same corrupt graph but with offending module identity `7`. -/
def cMissing7 : Compilation where
  modules := [7]
  moduleGraph := fun _ => none
  moduleChunks := fun m => if m = 7 then {1, 2} else ∅
  chunkModules := fun u => if u = 1 then {7} else if u = 2 then {7} else ∅
  chunks := {1, 2}
  nextUkey := 3

/-- Claim C4 (counterexample): the error the pass aborts with does not
carry the offending module identity — two corrupt graphs whose offending
identities differ (5 versus 7) abort with the very same fixed panic
message `"Should have a module here"` (plugin.rs lines 82 and 109), so the
error cannot identify the offending module. -/
theorem missing_module_error_counterexample :
    optimize_chunks cMissing5 = Except.error "Should have a module here" ∧
    optimize_chunks cMissing7 = Except.error "Should have a module here" ∧
    optimize_chunks cMissing5 = optimize_chunks cMissing7 := by
  have h5 : ¬ allPresent cMissing5 := by decide
  have h7 : ¬ allPresent cMissing7 := by decide
  refine ⟨?_, ?_, ?_⟩
  · rw [optimize_chunks, if_neg h5]
  · rw [optimize_chunks, if_neg h7]
  · rw [optimize_chunks, optimize_chunks, if_neg h5, if_neg h7]

/-- Claim C4 (amended): if a module identity present in a `SharedModule`
cannot be found in the module graph, the pass aborts — no pass result is
returned — surfacing the fixed panic message
`"Should have a module here"`, which does not carry the offending module
identity. -/
theorem missing_module_error_amended (c : Compilation)
    (h : ∃ sm ∈ sharedOf c, c.moduleGraph sm.module = none) :
    optimize_chunks c = Except.error "Should have a module here" := by
  rw [optimize_chunks, if_neg]
  intro hap
  rcases h with ⟨sm, hsm, hnone⟩
  have := hap sm hsm
  rw [hnone] at this
  simp at this

theorem missing_module_error_amended_witness :
    (∃ sm ∈ sharedOf cMissing5, cMissing5.moduleGraph sm.module = none) ∧
    optimize_chunks cMissing5 = Except.error "Should have a module here" :=
  ⟨by decide, missing_module_error_amended cMissing5 (by decide)⟩

/-- Three shared modules of raw size 3,000,000 each, non-JSX type: the
window's weighted size is `3 * 3000000 * 1.5 = 13500000`, which triggers
the size re-split. -/
def em0 : SharedModule := SharedModule.mk 0 {0, 1}

def em1 : SharedModule := SharedModule.mk 1 {0, 1}

def em2 : SharedModule := SharedModule.mk 2 {0, 1}

def exW : List SharedModule := [em0, em1, em2]

def exData : ℕ → ModuleData := fun _ => ModuleData.mk ModuleType.other 3000000

theorem exW_weighted : windowWeightedSize exData exW = 13500000 := by
  norm_num [windowWeightedSize, exW, exData, em0, em1, em2, coefficient]

theorem exW_takeGreedy :
    takeGreedy (fun i => (exData i).size) 0 exW = ([em0, em1], [em2]) := by
  norm_num [takeGreedy, exW, exData, em0, em1, em2, MAX_SIZE_PER_CHUNK]

theorem exW_takeGreedy2 :
    takeGreedy (fun i => (exData i).size) 0 [em2] = ([em2], []) := by
  norm_num [takeGreedy, exData, em2, MAX_SIZE_PER_CHUNK]

theorem splitLoop_nil_eval (f : ℕ → ℚ) (remain : ℚ) :
    splitLoop f remain [] = [] := by
  rw [splitLoop]
  simp

theorem exW_listSum01 : listSum (fun i => (exData i).size) [em0, em1] = 6000000 := by
  norm_num [listSum, exData, em0, em1]

theorem exW_listSum2 : listSum (fun i => (exData i).size) [em2] = 3000000 := by
  norm_num [listSum, exData, em2]

theorem exW_processWindow :
    processWindow exData exW = [[em0, em1], [em2]] := by
  unfold processWindow
  rw [if_pos (by rw [exW_weighted]; norm_num [MAX_SIZE_PER_CHUNK]), exW_weighted]
  rw [splitLoop, dif_pos ⟨by norm_num [MAX_SIZE_PER_CHUNK], by simp [exW]⟩,
    exW_takeGreedy]
  show [em0, em1] :: splitLoop (fun i => (exData i).size)
    (13500000 - listSum (fun i => (exData i).size) [em0, em1]) [em2] = _
  rw [exW_listSum01, show (13500000 : ℚ) - 6000000 = 7500000 from by norm_num]
  rw [splitLoop, dif_pos ⟨by norm_num [MAX_SIZE_PER_CHUNK], by simp⟩,
    exW_takeGreedy2]
  show _ :: ([em2] :: splitLoop (fun i => (exData i).size)
    (7500000 - listSum (fun i => (exData i).size) [em2]) []) = _
  rw [splitLoop_nil_eval]

/-- Claim C2 (counterexample): a window of three non-JSX modules of raw
size 3,000,000 each has weighted size 13,500,000 and is re-partitioned;
the first emitted batch — not the last of its window, since two batches
are emitted — has raw size 6,000,000, strictly above
`MAX_SIZE_PER_CHUNK = 5000000`.  The inner loop checks the running size
before each add (plugin.rs line 105), so the module that crosses the cap
is still included, refuting the claimed `≤` bound for non-final
batches. -/
theorem size_bound_counterexample :
    MAX_SIZE_PER_CHUNK < windowWeightedSize exData exW ∧
    processWindow exData exW = [[em0, em1], [em2]] ∧
    MAX_SIZE_PER_CHUNK < listSum (fun i => (exData i).size) [em0, em1] := by
  refine ⟨by rw [exW_weighted]; norm_num [MAX_SIZE_PER_CHUNK],
    exW_processWindow, ?_⟩
  rw [exW_listSum01]
  norm_num [MAX_SIZE_PER_CHUNK]

/-- Claim C2 (amended): for every window that is re-partitioned by the
size-based re-split, every resulting batch except possibly the last one
in that window is closed only once its raw total reaches or exceeds
`MAX_SIZE_PER_CHUNK`: the batch without its final module has raw size
strictly below the cap, and the full batch has raw size at least the cap
(so a batch may overshoot the cap by its final module; the greedy walk
accumulates while the running total is below the cap, not until the next
module would exceed it). -/
theorem size_bound_amended (data : ℕ → ModuleData) (w : List SharedModule)
    (hw : MAX_SIZE_PER_CHUNK < windowWeightedSize data w) :
    ∀ b ∈ (processWindow data w).dropLast,
      listSum (fun i => (data i).size) b.dropLast < MAX_SIZE_PER_CHUNK ∧
        MAX_SIZE_PER_CHUNK ≤ listSum (fun i => (data i).size) b := by
  unfold processWindow
  rw [if_pos hw]
  exact splitLoop_dropLast_bound _ _ _

theorem size_bound_amended_witness :
    MAX_SIZE_PER_CHUNK < windowWeightedSize exData exW ∧
    (listSum (fun i => (exData i).size) ([em0, em1] : List SharedModule).dropLast <
        MAX_SIZE_PER_CHUNK ∧
      MAX_SIZE_PER_CHUNK ≤ listSum (fun i => (exData i).size) [em0, em1]) := by
  have hw : MAX_SIZE_PER_CHUNK < windowWeightedSize exData exW := by
    rw [exW_weighted]
    norm_num [MAX_SIZE_PER_CHUNK]
  refine ⟨hw, size_bound_amended exData exW hw [em0, em1] ?_⟩
  rw [exW_processWindow]
  simp

/-- A window of two JSX modules: raw sizes 5,000,000 and 0, so the raw
total equals the cap exactly while the weighted total is 25,000,000. -/
def exJ0 : SharedModule := SharedModule.mk 0 {0, 1}

def exJ1 : SharedModule := SharedModule.mk 1 {0, 1}

def exJW : List SharedModule := [exJ0, exJ1]

def exJData : ℕ → ModuleData :=
  fun i => if i = 0 then ModuleData.mk ModuleType.jsx 5000000
    else ModuleData.mk ModuleType.jsx 0

theorem exJW_weighted : windowWeightedSize exJData exJW = 25000000 := by
  norm_num [windowWeightedSize, exJW, exJData, exJ0, exJ1, coefficient]

theorem exJW_raw : listSum (fun i => (exJData i).size) exJW = 5000000 := by
  norm_num [listSum, exJW, exJData, exJ0, exJ1]

theorem exJW_takeGreedy :
    takeGreedy (fun i => (exJData i).size) 0 exJW = ([exJ0], [exJ1]) := by
  norm_num [takeGreedy, exJW, exJData, exJ0, exJ1, MAX_SIZE_PER_CHUNK]

theorem exJW_takeGreedy2 :
    takeGreedy (fun i => (exJData i).size) 0 [exJ1] = ([exJ1], []) := by
  norm_num [takeGreedy, exJData, exJ1, MAX_SIZE_PER_CHUNK]

theorem exJW_processWindow :
    processWindow exJData exJW = [[exJ0], [exJ1]] := by
  unfold processWindow
  rw [if_pos (by rw [exJW_weighted]; norm_num [MAX_SIZE_PER_CHUNK]),
    exJW_weighted]
  rw [splitLoop, dif_pos ⟨by norm_num [MAX_SIZE_PER_CHUNK], by simp [exJW]⟩,
    exJW_takeGreedy]
  show [exJ0] :: splitLoop (fun i => (exJData i).size)
    (25000000 - listSum (fun i => (exJData i).size) [exJ0]) [exJ1] = _
  rw [show listSum (fun i => (exJData i).size) [exJ0] = 5000000 from by
      norm_num [listSum, exJData, exJ0],
    show (25000000 : ℚ) - 5000000 = 20000000 from by norm_num]
  rw [splitLoop, dif_pos ⟨by norm_num [MAX_SIZE_PER_CHUNK], by simp⟩,
    exJW_takeGreedy2]
  show _ :: ([exJ1] :: splitLoop (fun i => (exJData i).size)
    (20000000 - listSum (fun i => (exJData i).size) [exJ1]) []) = _
  rw [splitLoop_nil_eval]

/-- Claim C5 (counterexample): a window whose weighted size (25,000,000)
exceeds the cap while the raw total (5,000,000) does not exceed it — the
claim's hypothesis, which admits raw total equal to the cap — yields two
batches, not one batch containing the whole window: the first module
alone reaches the cap and the trailing zero-size module is emitted as a
second batch. -/
theorem weighted_trigger_counterexample :
    MAX_SIZE_PER_CHUNK < windowWeightedSize exJData exJW ∧
    listSum (fun i => (exJData i).size) exJW ≤ MAX_SIZE_PER_CHUNK ∧
    processWindow exJData exJW = [[exJ0], [exJ1]] ∧
    [[exJ0], [exJ1]] ≠ [exJW] := by
  refine ⟨by rw [exJW_weighted]; norm_num [MAX_SIZE_PER_CHUNK],
    by rw [exJW_raw]; norm_num [MAX_SIZE_PER_CHUNK],
    exJW_processWindow, by decide⟩

/-- Claim C5 (amended): for any single window with nonnegative module
sizes whose weighted size estimate exceeds `MAX_SIZE_PER_CHUNK` but whose
raw unweighted total size is strictly below it, the re-split logic
triggers (the decision uses the weighted estimate) yet produces exactly
one batch containing the whole window (boundaries use raw size). -/
theorem weighted_trigger_amended (data : ℕ → ModuleData) (w : List SharedModule)
    (hnn : ∀ sm ∈ w, 0 ≤ (data sm.module).size)
    (hw : MAX_SIZE_PER_CHUNK < windowWeightedSize data w)
    (hraw : listSum (fun i => (data i).size) w < MAX_SIZE_PER_CHUNK) :
    splitLoop (fun i => (data i).size) (windowWeightedSize data w) w = [w] ∧
    processWindow data w = [w] := by
  have hw0 : w ≠ [] := by
    intro h0
    rw [h0] at hw
    simp only [windowWeightedSize, List.map_nil, List.sum_nil] at hw
    exact absurd hw (by norm_num [MAX_SIZE_PER_CHUNK])
  have htg : takeGreedy (fun i => (data i).size) 0 w = (w, []) :=
    takeGreedy_consume_all _ 0 w hnn (by simpa using hraw)
  have hsl : splitLoop (fun i => (data i).size) (windowWeightedSize data w) w
      = [w] := by
    rw [splitLoop, dif_pos ⟨hw, hw0⟩, htg]
    show w :: splitLoop (fun i => (data i).size) _ [] = [w]
    rw [splitLoop_nil_eval]
  exact ⟨hsl, by unfold processWindow; rw [if_pos hw]; exact hsl⟩

/-- A single TSX module of raw size 2,000,000: weighted size 10,000,000
exceeds the cap while the raw total is strictly below it. -/
def exJV : List SharedModule := [SharedModule.mk 4 {0, 1}]

def exJVData : ℕ → ModuleData := fun _ => ModuleData.mk ModuleType.tsx 2000000

theorem weighted_trigger_amended_witness :
    (∀ sm ∈ exJV, 0 ≤ (exJVData sm.module).size) ∧
    MAX_SIZE_PER_CHUNK < windowWeightedSize exJVData exJV ∧
    listSum (fun i => (exJVData i).size) exJV < MAX_SIZE_PER_CHUNK ∧
    (splitLoop (fun i => (exJVData i).size) (windowWeightedSize exJVData exJV)
        exJV = [exJV] ∧
      processWindow exJVData exJV = [exJV]) := by
  have h1 : ∀ sm ∈ exJV, 0 ≤ (exJVData sm.module).size := by
    intro sm h
    norm_num [exJVData]
  have h2 : MAX_SIZE_PER_CHUNK < windowWeightedSize exJVData exJV := by
    norm_num [windowWeightedSize, exJV, exJVData, coefficient, MAX_SIZE_PER_CHUNK]
  have h3 : listSum (fun i => (exJVData i).size) exJV < MAX_SIZE_PER_CHUNK := by
    norm_num [listSum, exJV, exJVData, MAX_SIZE_PER_CHUNK]
  exact ⟨h1, h2, h3, weighted_trigger_amended exJVData exJV h1 h2 h3⟩
